import Mathlib

/-!
# Verification of the ANS spread-table construction pipeline

Shallow embedding of the table-construction pipeline exposed by
`src/c/binaryANS.cpp`.  The wrapper composes four operations of the ANS
toolkit (`init_from_distribution`, `init_binary`, `quantize_prec`,
`spread_fast`); the toolkit itself is not part of the visible source, so
those stages are modelled from the specification (§3, §4 of the spec),
while the two exported entry points follow the visible wrapper code.

Real weights are embedded as rationals (`ℚ`); machine integers carry no
overflow here (table sizes are `2^lnL` and all counts stay below `L`),
so they are embedded as `ℕ`.  Fallible stages return `Except ANSError`.
-/

namespace ANS

/-- The error taxonomy of the spec (§7). -/
inductive ANSError where
  | InvalidDistribution
  | InvalidParameter
  | PrecisionTooLow
  | CapacityExceeded
  deriving DecidableEq

/-- Modelled from the spec: the explicit Distribution Builder
(`fromExplicit`, reached through the toolkit's `init_from_distribution`,
which is not in the visible source).  Fails with `InvalidDistribution` if
`m == 0`, or any weight is negative, or all weights are zero; otherwise the
supplied weights (not necessarily normalized) are the distribution.
The alphabet size `m` is the length of the weight list. -/
def init_from_distribution (w : List ℚ) : Except ANSError (List ℚ) :=
  if w.length = 0 ∨ w.any (fun x => decide (x < 0)) ∨ w.all (fun x => decide (x = 0)) then
    .error .InvalidDistribution
  else
    .ok w

/-- Binary-digit accumulator for `popcount`; `fuel ≥ n` always suffices. -/
def popcountAux : ℕ → ℕ → ℕ
  | 0, _ => 0
  | fuel + 1, n => if n = 0 then 0 else n % 2 + popcountAux fuel (n / 2)

/-- Number of 1-bits of a natural number. -/
def popcount (n : ℕ) : ℕ := popcountAux n n

/-- Modelled from the spec: the binary-block weight vector (§3) —
`m = 2^bits` symbols, one per bit-block value `v`, with
`weight(v) = p^popcount(v) * (1-p)^(bits - popcount(v))`. -/
def binaryWeights (p : ℚ) (bits : ℕ) : List ℚ :=
  (List.range (2 ^ bits)).map (fun v => p ^ popcount v * (1 - p) ^ (bits - popcount v))

/-- Modelled from the spec: the implementation-defined ceiling on the block
size of the binary-block builder (§4.1), chosen so that `2^bits` cannot
overflow a 32-bit table index. -/
def maxBits : ℕ := 30

/-- Modelled from the spec: the binary-block Distribution Builder
(`fromBinaryBlock`, reached through the toolkit's `init_binary`, which is
not in the visible source).  Fails with `InvalidParameter` if `p` is
outside `[0,1]`, `bits <= 0`, or `bits` exceeds the supported ceiling. -/
def init_binary (p : ℚ) (bits : ℕ) : Except ANSError (List ℚ) :=
  if p < 0 ∨ 1 < p ∨ bits = 0 ∨ maxBits < bits then
    .error .InvalidParameter
  else
    .ok (binaryWeights p bits)

/-! ## Quantizer (§4.2), modelled from the spec

Normalize the weights to probabilities, apportion `L` units by the
largest-remainder rule (floor allocation plus one extra unit for the `d`
largest fractional remainders, ties broken by lowest symbol ID), then fix
up positive-weight symbols that received zero by taking a unit from the
symbol currently holding the largest frequency. -/

/-- The ideal (rational) share `w_i * L / Σw` of symbol `i`. -/
def share (w : List ℚ) (L : ℕ) (i : ℕ) : ℚ :=
  w.getD i 0 * (L : ℚ) / w.sum

/-- Fractional remainder of symbol `i`'s ideal share. -/
def frac (w : List ℚ) (L : ℕ) (i : ℕ) : ℚ :=
  share w L i - Rat.floor (share w L i)

/-- Priority order for the spare units: `j` beats `i` when `j` has the
strictly larger remainder, or an equal remainder and the lower ID. -/
def beats (w : List ℚ) (L : ℕ) (j i : ℕ) : Prop :=
  frac w L i < frac w L j ∨ (frac w L j = frac w L i ∧ j < i)

instance (w : List ℚ) (L j i : ℕ) : Decidable (beats w L j i) :=
  decidable_of_iff (frac w L i < frac w L j ∨ (frac w L j = frac w L i ∧ j < i))
    (by rw [beats])

/-- Number of symbols that beat `i`; symbol `i` receives a spare unit
exactly when `rank < d`. -/
def rank (w : List ℚ) (L : ℕ) (i : ℕ) : ℕ :=
  ((Finset.range w.length).filter (fun j => beats w L j i)).card

/-- Floor allocation of symbol `i`. -/
def floorAlloc (w : List ℚ) (L : ℕ) (i : ℕ) : ℕ :=
  (Rat.floor (share w L i)).toNat

/-- The number of spare units left after the floor allocation. -/
def deficit (w : List ℚ) (L : ℕ) : ℕ :=
  L - ((List.range w.length).map (floorAlloc w L)).sum

/-- Largest-remainder apportionment: floors plus one spare unit for each
of the `deficit` best-ranked symbols. -/
def apportion (w : List ℚ) (L : ℕ) : List ℕ :=
  (List.range w.length).map
    (fun i => floorAlloc w L i + if rank w L i < deficit w L then 1 else 0)

/-- First symbol (lowest ID) with positive weight but zero frequency. -/
def bumpIndex (w : List ℚ) (f : List ℕ) : Option ℕ :=
  (List.range f.length).find?
    (fun s => decide (0 < w.getD s 0) && decide (f.getD s 0 = 0))

/-- The largest entry of a frequency list. -/
def listMax (f : List ℕ) : ℕ := f.foldr max 0

/-- Lowest index currently holding the largest frequency. -/
def maxIndex (f : List ℕ) : ℕ :=
  (((List.range f.length).find? (fun j => decide (f.getD j 0 = listMax f)))).getD 0

/-- One fix-up round: raise symbol `s` from zero to one and take the
excess unit from the symbol currently holding the largest frequency. -/
def fixupStep (f : List ℕ) (s : ℕ) : List ℕ :=
  (f.set s 1).set (maxIndex (f.set s 1)) ((f.set s 1).getD (maxIndex (f.set s 1)) 0 - 1)

/-- The fix-up loop (fuelled; `w.length` rounds always suffice). -/
def fixup (w : List ℚ) : ℕ → List ℕ → List ℕ
  | 0, f => f
  | fuel + 1, f =>
    match bumpIndex w f with
    | none => f
    | some s => fixup w fuel (fixupStep f s)

/-- Modelled from the spec: the Quantizer (§4.2, the toolkit's
`quantize_prec`, which is not in the visible source).  Fails with
`PrecisionTooLow` when `m > L = 2^lnL`; otherwise returns the
largest-remainder apportionment followed by the positive-mass fix-up. -/
def quantize_prec (w : List ℚ) (lnL : ℕ) : Except ANSError (List ℕ) :=
  let L := 2 ^ lnL
  if L < w.length then .error .PrecisionTooLow
  else .ok (fixup w w.length (apportion w L))

/-! ## Spreader (§4.3), modelled from the spec

Write the symbols, in ID order and with symbol `s` repeated `freq[s]`
times, into the table along a fixed-stride wraparound scan whose step is
odd (hence coprime with the power-of-two table size `L`). -/

/-- The fixed stride: `L*5/8 + 3`, adjusted to be odd. -/
def spreadStep (lnL : ℕ) : ℕ :=
  if (2 ^ lnL * 5 / 8 + 3) % 2 = 1 then 2 ^ lnL * 5 / 8 + 3
  else 2 ^ lnL * 5 / 8 + 3 + 1

/-- The run-length expansion of a frequency table starting at symbol `s`:
`freq[s]` copies of `s`, then `freq[s+1]` copies of `s+1`, and so on. -/
def expansionAux : ℕ → List ℕ → List ℕ
  | _, [] => []
  | s, k :: rest => List.replicate k s ++ expansionAux (s + 1) rest

/-- The run-length expansion of a frequency table in symbol-ID order. -/
def expansion (f : List ℕ) : List ℕ := expansionAux 0 f

/-- The spreading scan: write each symbol of `syms` at the cursor, then
advance the cursor by the fixed `step` modulo `L`. -/
def spreadLoop : List ℕ → ℕ → ℕ → ℕ → List ℕ → List ℕ
  | [], _, _, _, t => t
  | s :: rest, pos, step, L, t => spreadLoop rest ((pos + step) % L) step L (t.set pos s)

/-- Modelled from the spec: the Spreader (§4.3, the toolkit's
`spread_fast`, which is not in the visible source).  Fails with
`CapacityExceeded` when `Σ freq ≠ L` (an internal-invariant violation);
otherwise fills a table of `L` slots along the coprime-stride scan. -/
def spread_fast (f : List ℕ) (lnL : ℕ) : Except ANSError (List ℕ) :=
  let L := 2 ^ lnL
  if f.sum ≠ L then .error .CapacityExceeded
  else .ok (spreadLoop (expansion f) 0 (spreadStep lnL) L (List.replicate L 0))

/-! ## The exported entry points (from `src/c/binaryANS.cpp`)

The wrapper builds the toolkit object from the distribution (resp. the
binary-block parameters), quantizes it at precision `lnL`, spreads it,
and hands back the `2^lnL`-entry table.  The alphabet size `m` of the C
signature is the length of the weight list. -/

/-- `getCustomSymbolSpread` from `src/c/binaryANS.cpp`:
`init_from_distribution` → `quantize_prec` → `spread_fast`. -/
def getCustomSymbolSpread (w : List ℚ) (lnL : ℕ) : Except ANSError (List ℕ) := do
  let d ← init_from_distribution w
  let f ← quantize_prec d lnL
  spread_fast f lnL

/-- `getBinarySymbolSpread` from `src/c/binaryANS.cpp`:
`init_binary` → `quantize_prec` → `spread_fast`. -/
def getBinarySymbolSpread (p : ℚ) (bits : ℕ) (lnL : ℕ) : Except ANSError (List ℕ) := do
  let d ← init_binary p bits
  let f ← quantize_prec d lnL
  spread_fast f lnL

/-! ## Basic shape lemmas about the pipeline stages -/

/-- `init_from_distribution` succeeds exactly on valid weight lists and
then returns them unchanged. -/
theorem init_from_distribution_ok (w : List ℚ)
    (h : ¬(w.length = 0 ∨ (∃ x ∈ w, x < 0) ∨ ∀ x ∈ w, x = 0)) :
    init_from_distribution w = .ok w := by
  rw [init_from_distribution, if_neg]
  intro hc
  apply h
  rcases hc with h1 | h2 | h3
  · exact Or.inl h1
  · refine Or.inr (Or.inl ?_)
    obtain ⟨x, hx, hlt⟩ := List.any_eq_true.mp h2
    exact ⟨x, hx, of_decide_eq_true hlt⟩
  · refine Or.inr (Or.inr ?_)
    intro x hx
    exact of_decide_eq_true (List.all_eq_true.mp h3 x hx)

/-- The only error `init_from_distribution` reports is
`InvalidDistribution`, and it does so exactly on the degenerate inputs. -/
theorem init_from_distribution_error (w : List ℚ) :
    init_from_distribution w = .error .InvalidDistribution ↔
      (w.length = 0 ∨ (∀ x ∈ w, x = 0) ∨ ∃ x ∈ w, x < 0) := by
  constructor
  · intro h
    by_contra hc
    rw [init_from_distribution_ok w] at h
    · exact Except.noConfusion h
    · intro hd
      apply hc
      rcases hd with h1 | h2 | h3
      · exact Or.inl h1
      · exact Or.inr (Or.inr h2)
      · exact Or.inr (Or.inl h3)
  · intro h
    rw [init_from_distribution, if_pos]
    rcases h with h1 | h2 | h3
    · exact Or.inl h1
    · refine Or.inr (Or.inr (List.all_eq_true.mpr ?_))
      intro x hx
      exact decide_eq_true (h2 x hx)
    · refine Or.inr (Or.inl (List.any_eq_true.mpr ?_))
      obtain ⟨x, hx, hlt⟩ := h3
      exact ⟨x, hx, decide_eq_true hlt⟩

/-- `quantize_prec` reports `PrecisionTooLow` exactly when `m > L`. -/
theorem quantize_prec_error (w : List ℚ) (lnL : ℕ) :
    quantize_prec w lnL = .error .PrecisionTooLow ↔ 2 ^ lnL < w.length := by
  rw [quantize_prec]
  by_cases h : 2 ^ lnL < w.length
  · simp [h]
  · simp [h]

/-- On an alphabet that fits the table, `quantize_prec` succeeds with the
fixed-up apportionment. -/
theorem quantize_prec_ok (w : List ℚ) (lnL : ℕ) (h : w.length ≤ 2 ^ lnL) :
    quantize_prec w lnL = .ok (fixup w w.length (apportion w (2 ^ lnL))) := by
  rw [quantize_prec, if_neg (by omega)]

/-- Anatomy of a successful `quantize_prec` run. -/
theorem quantize_prec_ok_elim (w : List ℚ) (lnL : ℕ) (f : List ℕ)
    (h : quantize_prec w lnL = .ok f) :
    w.length ≤ 2 ^ lnL ∧ f = fixup w w.length (apportion w (2 ^ lnL)) := by
  by_cases hc : 2 ^ lnL < w.length
  · rw [quantize_prec, if_pos hc] at h
    exact Except.noConfusion h
  · rw [quantize_prec, if_neg hc] at h
    exact ⟨by omega, (Except.ok.injEq _ _).mp h |>.symm⟩

/-- Anatomy of a successful `spread_fast` run. -/
theorem spread_fast_ok_elim (f : List ℕ) (lnL : ℕ) (t : List ℕ)
    (h : spread_fast f lnL = .ok t) :
    f.sum = 2 ^ lnL ∧
      t = spreadLoop (expansion f) 0 (spreadStep lnL) (2 ^ lnL) (List.replicate (2 ^ lnL) 0) := by
  by_cases hc : f.sum = 2 ^ lnL
  · rw [spread_fast, if_neg (by simpa using hc)] at h
    exact ⟨hc, (Except.ok.injEq _ _).mp h |>.symm⟩
  · rw [spread_fast, if_pos (by simpa using hc)] at h
    exact Except.noConfusion h

/-- The only error `quantize_prec` can report is `PrecisionTooLow`. -/
theorem quantize_prec_error_shape (w : List ℚ) (lnL : ℕ) (e : ANSError)
    (h : quantize_prec w lnL = .error e) : e = .PrecisionTooLow := by
  rw [quantize_prec] at h
  by_cases hc : 2 ^ lnL < w.length
  · rw [if_pos hc] at h
    exact ((Except.error.injEq _ _).mp h).symm
  · rw [if_neg hc] at h
    exact Except.noConfusion h

/-- `spread_fast` never reports `InvalidDistribution`. -/
theorem spread_fast_ne_invalid (f : List ℕ) (lnL : ℕ) :
    spread_fast f lnL ≠ .error .InvalidDistribution := by
  rw [spread_fast]
  by_cases hc : f.sum = 2 ^ lnL
  · rw [if_neg (by simpa using hc)]
    exact fun h => Except.noConfusion h
  · rw [if_pos (by simpa using hc)]
    intro h
    exact ANSError.noConfusion ((Except.error.injEq _ _).mp h)

/-! ## General list helpers -/

/-- A sum over a list is the `Finset.range` sum of its entries. -/
theorem list_sum_eq_sum_range {M : Type} [AddCommMonoid M] (l : List M) :
    l.sum = ∑ i ∈ Finset.range l.length, l.getD i 0 := by
  induction l with
  | nil => simp
  | cons a tl ih =>
    rw [List.sum_cons, List.length_cons, Finset.sum_range_succ' (fun i => (a :: tl).getD i 0)]
    simp only [List.getD_cons_succ, List.getD_cons_zero]
    rw [ih, add_comm]

/-- The sum of a mapped range as a `Finset.range` sum. -/
theorem range_map_sum {M : Type} [AddCommMonoid M] (n : ℕ) (f : ℕ → M) :
    ((List.range n).map f).sum = ∑ i ∈ Finset.range n, f i := by
  induction n with
  | zero => simp
  | succ n ih =>
    rw [List.range_succ, List.map_append, List.sum_append, Finset.sum_range_succ, ih]
    simp

/-- `getD` of an in-range `set` at the same index. -/
theorem getD_set_self (l : List ℕ) (i : ℕ) (a : ℕ) (h : i < l.length) :
    (l.set i a).getD i 0 = a := by
  rw [List.getD_eq_getElem?_getD, List.getElem?_set_self h]
  rfl

/-- `getD` of a `set` at a different index. -/
theorem getD_set_ne (l : List ℕ) (i j : ℕ) (a : ℕ) (h : i ≠ j) :
    (l.set i a).getD j 0 = l.getD j 0 := by
  rw [List.getD_eq_getElem?_getD, List.getElem?_set_ne h, ← List.getD_eq_getElem?_getD]

/-- Setting an entry changes a `ℕ`-sum by the difference of new and old. -/
theorem sum_set_getD (l : List ℕ) (n a : ℕ) (h : n < l.length) :
    (l.set n a).sum + l.getD n 0 = l.sum + a := by
  induction l generalizing n with
  | nil => simp at h
  | cons x tl ih =>
    cases n with
    | zero => simp [List.sum_cons]; omega
    | succ n =>
      have h' : n < tl.length := by simpa using h
      have := ih n h'
      simp only [List.set_cons_succ, List.sum_cons, List.getD_cons_succ]
      omega

/-- Every entry of a list is bounded by `listMax`. -/
theorem listMax_cons (a : ℕ) (tl : List ℕ) : listMax (a :: tl) = max a (listMax tl) := rfl

/-- Every entry of a list is bounded by `listMax`. -/
theorem le_listMax (l : List ℕ) (x : ℕ) (hx : x ∈ l) : x ≤ listMax l := by
  induction l with
  | nil => simp at hx
  | cons a tl ih =>
    rw [listMax_cons]
    rcases List.mem_cons.mp hx with h | h
    · rw [h]
      exact le_max_left _ _
    · exact le_trans (ih h) (le_max_right _ _)

/-- `listMax` of a nonempty list is attained. -/
theorem listMax_mem (l : List ℕ) (h : l ≠ []) : listMax l ∈ l := by
  induction l with
  | nil => exact absurd rfl h
  | cons a tl ih =>
    rw [listMax_cons]
    rcases eq_or_ne tl [] with h1 | h1
    · subst h1
      simp [listMax]
    · rcases le_total (listMax tl) a with h2 | h2
      · rw [max_eq_left h2]
        exact List.mem_cons_self a tl
      · rw [max_eq_right h2]
        exact List.mem_cons_of_mem a (ih h1)

/-- A `ℕ`-list sums to at most its length times its max. -/
theorem sum_le_length_mul_listMax (l : List ℕ) : l.sum ≤ l.length * listMax l := by
  induction l with
  | nil => simp
  | cons a tl ih =>
    rw [List.sum_cons, List.length_cons, listMax_cons]
    have h1 : a ≤ max a (listMax tl) := le_max_left _ _
    have h2 : tl.sum ≤ tl.length * max a (listMax tl) :=
      le_trans ih (Nat.mul_le_mul_left _ (le_max_right _ _))
    calc a + tl.sum ≤ max a (listMax tl) + tl.length * max a (listMax tl) := by omega
    _ = (tl.length + 1) * max a (listMax tl) := by ring

/-- `maxIndex` of a nonempty list points at an entry holding `listMax`. -/
theorem maxIndex_spec (f : List ℕ) (h : f ≠ []) :
    maxIndex f < f.length ∧ f.getD (maxIndex f) 0 = listMax f := by
  have hmem : listMax f ∈ f := listMax_mem f h
  obtain ⟨j, hj, hje⟩ := List.mem_iff_getElem.mp hmem
  have hex : ∃ x ∈ List.range f.length, decide (f.getD x 0 = listMax f) = true := by
    refine ⟨j, List.mem_range.mpr hj, decide_eq_true ?_⟩
    rw [List.getD_eq_getElem _ _ hj, hje]
  obtain ⟨j₀, hfind⟩ := Option.isSome_iff_exists.mp (List.find?_isSome.mpr hex)
  have hj₀ : j₀ ∈ List.range f.length := List.mem_of_find?_eq_some hfind
  have hp := List.find?_some hfind
  simp only [decide_eq_true_eq] at hp
  have hmx : maxIndex f = j₀ := by
    rw [maxIndex, hfind]
    rfl
  rw [hmx]
  exact ⟨List.mem_range.mp hj₀, hp⟩

/-- Anatomy of a successful `bumpIndex` search. -/
theorem bumpIndex_spec (w : List ℚ) (f : List ℕ) (s : ℕ) (h : bumpIndex w f = some s) :
    s < f.length ∧ 0 < w.getD s 0 ∧ f.getD s 0 = 0 := by
  have hs : s ∈ List.range f.length := List.mem_of_find?_eq_some h
  have hp := List.find?_some h
  rw [Bool.and_eq_true, decide_eq_true_eq, decide_eq_true_eq] at hp
  exact ⟨List.mem_range.mp hs, hp.1, hp.2⟩

/-- When `bumpIndex` finds nothing, no positive-weight symbol is at zero. -/
theorem bumpIndex_none (w : List ℚ) (f : List ℕ) (h : bumpIndex w f = none) :
    ∀ s < f.length, 0 < w.getD s 0 → f.getD s 0 ≠ 0 := by
  intro s hs hw hf
  have := List.find?_eq_none.mp h s (List.mem_range.mpr hs)
  rw [Bool.and_eq_true, decide_eq_true_eq, decide_eq_true_eq] at this
  exact this ⟨hw, hf⟩

/-! ## Quantizer: shape and sum of the apportionment -/

/-- `Rat.floor` is the `Int.floor` of the `FloorRing` structure on `ℚ`. -/
theorem ratFloor_eq_intFloor (q : ℚ) : Rat.floor q = ⌊q⌋ :=
  (Rat.floor_def' q).trans Rat.floor_def.symm

/-- Entries read from a nonnegative weight list are nonnegative. -/
theorem getD_nonneg (w : List ℚ) (hw : ∀ x ∈ w, 0 ≤ x) (i : ℕ) : 0 ≤ w.getD i 0 := by
  by_cases h : i < w.length
  · rw [List.getD_eq_getElem _ _ h]
    exact hw _ (List.getElem_mem h)
  · rw [List.getD_eq_default _ _ (by omega)]

/-- Shares are nonnegative on valid inputs. -/
theorem share_nonneg (w : List ℚ) (L i : ℕ) (hw : ∀ x ∈ w, 0 ≤ x) (hs : 0 < w.sum) :
    0 ≤ share w L i := by
  rw [share]
  have h1 := getD_nonneg w hw i
  positivity

/-- The floor allocation is bounded by the share from below and above. -/
theorem floorAlloc_bounds (w : List ℚ) (L i : ℕ) (hw : ∀ x ∈ w, 0 ≤ x) (hs : 0 < w.sum) :
    (floorAlloc w L i : ℚ) ≤ share w L i ∧ share w L i < floorAlloc w L i + 1 := by
  have hq := share_nonneg w L i hw hs
  have hfz : (0 : ℤ) ≤ ⌊share w L i⌋ := Int.floor_nonneg.mpr hq
  have hcast : ((floorAlloc w L i : ℕ) : ℚ) = (⌊share w L i⌋ : ℚ) := by
    rw [floorAlloc, ratFloor_eq_intFloor]
    exact_mod_cast congrArg (fun z : ℤ => (z : ℚ)) (Int.toNat_of_nonneg hfz)
  constructor
  · rw [hcast]
    exact Int.floor_le _
  · rw [hcast]
    exact Int.lt_floor_add_one _

/-- The shares over the whole alphabet sum to `L`. -/
theorem share_sum (w : List ℚ) (L : ℕ) (hs : 0 < w.sum) :
    ∑ i ∈ Finset.range w.length, share w L i = (L : ℚ) := by
  simp only [share]
  rw [← Finset.sum_div, ← Finset.sum_mul, ← list_sum_eq_sum_range]
  field_simp

/-- The floor allocations sum to at most `L` (on valid inputs). -/
theorem floor_sum_le (w : List ℚ) (L : ℕ) (hw : ∀ x ∈ w, 0 ≤ x) (hs : 0 < w.sum) :
    ((List.range w.length).map (floorAlloc w L)).sum ≤ L := by
  have h : (((List.range w.length).map (floorAlloc w L)).sum : ℚ) ≤ (L : ℚ) := by
    rw [range_map_sum, Nat.cast_sum, ← share_sum w L hs]
    exact Finset.sum_le_sum fun i _ => (floorAlloc_bounds w L i hw hs).1
  exact_mod_cast h

/-- The floor allocations leave fewer than `m` spare units. -/
theorem lt_floor_sum_add (w : List ℚ) (L : ℕ) (hw : ∀ x ∈ w, 0 ≤ x) (hs : 0 < w.sum) :
    L < ((List.range w.length).map (floorAlloc w L)).sum + w.length := by
  have hm : w ≠ [] := by
    intro h
    rw [h] at hs
    simp at hs
  have hm' : 0 < w.length := List.length_pos.mpr hm
  have h : (L : ℚ) < (((List.range w.length).map (floorAlloc w L)).sum : ℚ) + w.length := by
    have hstep : (L : ℚ) < ∑ i ∈ Finset.range w.length, ((floorAlloc w L i : ℚ) + 1) := by
      rw [← share_sum w L hs]
      exact Finset.sum_lt_sum_of_nonempty (Finset.nonempty_range_iff.mpr (by omega))
        (fun i _ => (floorAlloc_bounds w L i hw hs).2)
    rw [Finset.sum_add_distrib, Finset.sum_const, Finset.card_range, nsmul_eq_mul,
      mul_one] at hstep
    rw [range_map_sum, Nat.cast_sum]
    exact hstep
  exact_mod_cast h

/-- The priority order is irreflexive. -/
theorem beats_irrefl (w : List ℚ) (L i : ℕ) : ¬ beats w L i i := by
  rw [beats]
  rintro (h | ⟨-, h⟩)
  · exact lt_irrefl _ h
  · exact lt_irrefl _ h

/-- The priority order is transitive. -/
theorem beats_trans (w : List ℚ) (L : ℕ) {a b c : ℕ}
    (h₁ : beats w L a b) (h₂ : beats w L b c) : beats w L a c := by
  rw [beats] at h₁ h₂ ⊢
  rcases h₁ with h₁ | ⟨h₁e, h₁l⟩ <;> rcases h₂ with h₂ | ⟨h₂e, h₂l⟩
  · exact Or.inl (lt_trans h₂ h₁)
  · exact Or.inl (h₂e ▸ h₁)
  · exact Or.inl (h₁e ▸ h₂)
  · exact Or.inr ⟨h₁e.trans h₂e, lt_trans h₁l h₂l⟩

/-- The priority order is total on distinct symbols. -/
theorem beats_total (w : List ℚ) (L : ℕ) {a b : ℕ} (h : a ≠ b) :
    beats w L a b ∨ beats w L b a := by
  rcases lt_trichotomy (frac w L a) (frac w L b) with hf | hf | hf
  · exact Or.inr (Or.inl hf)
  · rcases Nat.lt_or_ge a b with hab | hab
    · exact Or.inl (Or.inr ⟨hf, hab⟩)
    · exact Or.inr (Or.inr ⟨hf.symm, by omega⟩)
  · exact Or.inl (Or.inl hf)

/-- A symbol that beats another has the strictly smaller rank. -/
theorem rank_lt_of_beats (w : List ℚ) (L : ℕ) {a b : ℕ}
    (ha : a < w.length) (h : beats w L a b) : rank w L a < rank w L b := by
  have hsub : insert a ((Finset.range w.length).filter (fun j => beats w L j a)) ⊆
      (Finset.range w.length).filter (fun j => beats w L j b) := by
    intro x hx
    rcases Finset.mem_insert.mp hx with hx | hx
    · subst hx
      exact Finset.mem_filter.mpr ⟨Finset.mem_range.mpr ha, h⟩
    · have := Finset.mem_filter.mp hx
      exact Finset.mem_filter.mpr ⟨this.1, beats_trans w L this.2 h⟩
  have hnm : a ∉ (Finset.range w.length).filter (fun j => beats w L j a) := by
    intro hx
    exact beats_irrefl w L a (Finset.mem_filter.mp hx).2
  calc rank w L a
      < ((Finset.range w.length).filter (fun j => beats w L j a)).card + 1 := Nat.lt_succ_self _
    _ = (insert a ((Finset.range w.length).filter (fun j => beats w L j a))).card :=
        (Finset.card_insert_of_not_mem hnm).symm
    _ ≤ rank w L b := Finset.card_le_card hsub

/-- Ranks stay below the alphabet size. -/
theorem rank_lt_length (w : List ℚ) (L : ℕ) {a : ℕ} (ha : a < w.length) :
    rank w L a < w.length := by
  have hsub : (Finset.range w.length).filter (fun j => beats w L j a) ⊆
      (Finset.range w.length).erase a := by
    intro x hx
    have hm := Finset.mem_filter.mp hx
    refine Finset.mem_erase.mpr ⟨?_, hm.1⟩
    intro he
    exact beats_irrefl w L a (he ▸ hm.2)
  calc rank w L a ≤ ((Finset.range w.length).erase a).card := Finset.card_le_card hsub
    _ = w.length - 1 := by rw [Finset.card_erase_of_mem (Finset.mem_range.mpr ha),
        Finset.card_range]
    _ < w.length := by omega

/-- Ranks are injective over the alphabet. -/
theorem rank_injOn (w : List ℚ) (L : ℕ) {a b : ℕ}
    (ha : a < w.length) (hb : b < w.length) (h : rank w L a = rank w L b) : a = b := by
  by_contra hne
  rcases beats_total w L hne with hab | hba
  · exact absurd h (Nat.ne_of_lt (rank_lt_of_beats w L ha hab))
  · exact absurd h.symm (Nat.ne_of_lt (rank_lt_of_beats w L hb hba))

/-- Exactly `d` symbols are ranked below any `d ≤ m`. -/
theorem card_selected (w : List ℚ) (L d : ℕ) (hd : d ≤ w.length) :
    ((Finset.range w.length).filter (fun i => rank w L i < d)).card = d := by
  have hinj : Set.InjOn (rank w L) (Finset.range w.length) := by
    intro a ha b hb h
    exact rank_injOn w L (Finset.mem_range.mp ha) (Finset.mem_range.mp hb) h
  have himg : (Finset.range w.length).image (rank w L) = Finset.range w.length := by
    apply Finset.eq_of_subset_of_card_le
    · intro r hr
      obtain ⟨i, hi, hie⟩ := Finset.mem_image.mp hr
      exact Finset.mem_range.mpr (hie ▸ rank_lt_length w L (Finset.mem_range.mp hi))
    · rw [Finset.card_image_of_injOn hinj]
  have himg2 : ((Finset.range w.length).filter (fun i => rank w L i < d)).image (rank w L) =
      Finset.range d := by
    ext r
    constructor
    · intro hr
      obtain ⟨i, hi, hie⟩ := Finset.mem_image.mp hr
      exact Finset.mem_range.mpr (hie ▸ (Finset.mem_filter.mp hi).2)
    · intro hr
      have hrm : r ∈ Finset.range w.length := Finset.mem_range.mpr
        (lt_of_lt_of_le (Finset.mem_range.mp hr) hd)
      rw [← himg] at hrm
      obtain ⟨i, hi, hie⟩ := Finset.mem_image.mp hrm
      refine Finset.mem_image.mpr ⟨i, Finset.mem_filter.mpr ⟨hi, ?_⟩, hie⟩
      rw [hie]
      exact Finset.mem_range.mp hr
  calc ((Finset.range w.length).filter (fun i => rank w L i < d)).card
      = (((Finset.range w.length).filter (fun i => rank w L i < d)).image (rank w L)).card :=
        (Finset.card_image_of_injOn (hinj.mono (by
          intro x hx
          exact (Finset.mem_filter.mp hx).1))).symm
    _ = d := by rw [himg2, Finset.card_range]

/-- The apportionment has one frequency per symbol. -/
theorem apportion_length (w : List ℚ) (L : ℕ) : (apportion w L).length = w.length := by
  rw [apportion, List.length_map, List.length_range]

/-- Reading the apportionment of symbol `i`. -/
theorem apportion_getD (w : List ℚ) (L i : ℕ) (hi : i < w.length) :
    (apportion w L).getD i 0 =
      floorAlloc w L i + if rank w L i < deficit w L then 1 else 0 := by
  have hlen : i < (apportion w L).length := by rw [apportion_length]; exact hi
  rw [List.getD_eq_getElem _ _ hlen]
  simp only [apportion, List.getElem_map, List.getElem_range]

/-- The spare units fit: `deficit ≤ m`. -/
theorem deficit_le_length (w : List ℚ) (L : ℕ) (hw : ∀ x ∈ w, 0 ≤ x) (hs : 0 < w.sum) :
    deficit w L ≤ w.length := by
  have h1 := floor_sum_le w L hw hs
  have h2 := lt_floor_sum_add w L hw hs
  rw [deficit]
  omega

/-- **Apportionment invariant**: the largest-remainder allocation sums
exactly to `L`. -/
theorem apportion_sum (w : List ℚ) (L : ℕ) (hw : ∀ x ∈ w, 0 ≤ x) (hs : 0 < w.sum) :
    (apportion w L).sum = L := by
  have h1 := floor_sum_le w L hw hs
  simp only [apportion]
  rw [range_map_sum, Finset.sum_add_distrib, ← Finset.card_filter,
    ← range_map_sum w.length (floorAlloc w L),
    card_selected w L (deficit w L) (deficit_le_length w L hw hs), deficit]
  omega

/-! ## Quantizer: the fix-up loop preserves length and sum -/

/-- One fix-up round keeps the list length. -/
theorem fixupStep_length (f : List ℕ) (s : ℕ) : (fixupStep f s).length = f.length := by
  rw [fixupStep]
  simp [List.length_set]

/-- The fix-up loop keeps the list length. -/
theorem fixup_length (w : List ℚ) (fuel : ℕ) (f : List ℕ) :
    (fixup w fuel f).length = f.length := by
  induction fuel generalizing f with
  | zero => rfl
  | succ fuel ih =>
    have hunf : fixup w (fuel + 1) f = match bumpIndex w f with
      | none => f
      | some s => fixup w fuel (fixupStep f s) := rfl
    rw [hunf]
    cases hb : bumpIndex w f with
    | none => rfl
    | some s => exact (ih (fixupStep f s)).trans (fixupStep_length f s)

/-- One fix-up round keeps the total frequency. -/
theorem fixupStep_sum (w : List ℚ) (f : List ℕ) (s : ℕ) (h : bumpIndex w f = some s) :
    (fixupStep f s).sum = f.sum := by
  obtain ⟨hs, hwpos, hf0⟩ := bumpIndex_spec w f s h
  have hf1len : (f.set s 1).length = f.length := List.length_set f s 1
  have hf1sum : (f.set s 1).sum = f.sum + 1 := by
    have := sum_set_getD f s 1 hs
    omega
  have hf1ne : f.set s 1 ≠ [] := by
    intro hnil
    rw [← List.length_eq_zero, hf1len] at hnil
    omega
  obtain ⟨hjlt, hjmax⟩ := maxIndex_spec (f.set s 1) hf1ne
  have hone : (f.set s 1).getD s 0 = 1 := getD_set_self f s 1 hs
  have hmem : (1 : ℕ) ∈ f.set s 1 := by
    have hs1 : s < (f.set s 1).length := by omega
    exact List.mem_iff_getElem.mpr ⟨s, hs1, by rw [← List.getD_eq_getElem _ _ hs1, hone]⟩
  have hM1 : 1 ≤ (f.set s 1).getD (maxIndex (f.set s 1)) 0 := by
    rw [hjmax]
    exact le_listMax _ 1 hmem
  have hfin := sum_set_getD (f.set s 1) (maxIndex (f.set s 1))
    ((f.set s 1).getD (maxIndex (f.set s 1)) 0 - 1) hjlt
  rw [fixupStep]
  omega

/-- The fix-up loop keeps the total frequency. -/
theorem fixup_sum (w : List ℚ) (fuel : ℕ) (f : List ℕ) :
    (fixup w fuel f).sum = f.sum := by
  induction fuel generalizing f with
  | zero => rfl
  | succ fuel ih =>
    have hunf : fixup w (fuel + 1) f = match bumpIndex w f with
      | none => f
      | some s => fixup w fuel (fixupStep f s) := rfl
    rw [hunf]
    cases hb : bumpIndex w f with
    | none => rfl
    | some s => exact (ih (fixupStep f s)).trans (fixupStep_sum w f s hb)

/-! ## Quantizer: the fix-up loop eliminates positive-weight zeros -/

/-- The set of symbols with positive weight and zero frequency. -/
def zeroSet (w : List ℚ) (f : List ℕ) : Finset ℕ :=
  (Finset.range f.length).filter (fun s => 0 < w.getD s 0 ∧ f.getD s 0 = 0)

/-- One fix-up round strictly shrinks the zero set (the unit is always
taken from an entry that stays at least 1, because the maximum frequency
is at least 2 while the sum exceeds the length). -/
theorem fixupStep_zeroSet (w : List ℚ) (f : List ℕ) (s : ℕ)
    (h : bumpIndex w f = some s) (hge : f.length ≤ f.sum) :
    (zeroSet w (fixupStep f s)).card < (zeroSet w f).card := by
  obtain ⟨hs, hwpos, hf0⟩ := bumpIndex_spec w f s h
  have hf1len : (f.set s 1).length = f.length := List.length_set f s 1
  have hf1sum : (f.set s 1).sum = f.sum + 1 := by
    have := sum_set_getD f s 1 hs
    omega
  have hf1ne : f.set s 1 ≠ [] := by
    intro hnil
    rw [← List.length_eq_zero, hf1len] at hnil
    omega
  obtain ⟨hjlt, hjmax⟩ := maxIndex_spec (f.set s 1) hf1ne
  have hone : (f.set s 1).getD s 0 = 1 := getD_set_self f s 1 hs
  have hM2 : 2 ≤ listMax (f.set s 1) := by
    by_contra hM
    have := sum_le_length_mul_listMax (f.set s 1)
    have hle1 : listMax (f.set s 1) ≤ 1 := by omega
    have : (f.set s 1).sum ≤ (f.set s 1).length * 1 :=
      le_trans (sum_le_length_mul_listMax _) (Nat.mul_le_mul_left _ hle1)
    omega
  have hjs : maxIndex (f.set s 1) ≠ s := by
    intro he
    rw [he, hone] at hjmax
    omega
  have hsub : zeroSet w (fixupStep f s) ⊆ (zeroSet w f).erase s := by
    intro t ht
    have hmf := Finset.mem_filter.mp ht
    have htr := hmf.1
    have htw := hmf.2.1
    have htz := hmf.2.2
    rw [Finset.mem_range] at htr
    rw [fixupStep] at htr htz
    have htlen : t < f.length := by
      rw [List.length_set, hf1len] at htr
      exact htr
    have htj : t ≠ maxIndex (f.set s 1) := by
      intro he
      rw [he, getD_set_self _ _ _ hjlt, hjmax] at htz
      omega
    rw [getD_set_ne _ _ _ _ (Ne.symm htj)] at htz
    have hts : t ≠ s := by
      intro he
      rw [he, hone] at htz
      exact one_ne_zero htz
    rw [getD_set_ne _ _ _ _ (Ne.symm hts)] at htz
    refine Finset.mem_erase.mpr ⟨hts, Finset.mem_filter.mpr ⟨Finset.mem_range.mpr htlen,
      htw, htz⟩⟩
  have hsmem : s ∈ zeroSet w f :=
    Finset.mem_filter.mpr ⟨Finset.mem_range.mpr hs, hwpos, hf0⟩
  calc (zeroSet w (fixupStep f s)).card
      ≤ ((zeroSet w f).erase s).card := Finset.card_le_card hsub
    _ = (zeroSet w f).card - 1 := Finset.card_erase_of_mem hsmem
    _ < (zeroSet w f).card := by
        have : 0 < (zeroSet w f).card := Finset.card_pos.mpr ⟨s, hsmem⟩
        omega

/-- With enough fuel the fix-up loop leaves no positive-weight symbol at
zero frequency. -/
theorem fixup_no_zero (w : List ℚ) (fuel : ℕ) (f : List ℕ)
    (hge : f.length ≤ f.sum) (hcard : (zeroSet w f).card ≤ fuel) :
    zeroSet w (fixup w fuel f) = ∅ := by
  induction fuel generalizing f with
  | zero =>
    have : zeroSet w f = ∅ := Finset.card_eq_zero.mp (by omega)
    exact this
  | succ fuel ih =>
    have hunf : fixup w (fuel + 1) f = match bumpIndex w f with
      | none => f
      | some s => fixup w fuel (fixupStep f s) := rfl
    rw [hunf]
    cases hb : bumpIndex w f with
    | none =>
      have hnone := bumpIndex_none w f hb
      apply Finset.eq_empty_of_forall_not_mem
      intro t ht
      have hmf := Finset.mem_filter.mp ht
      exact hnone t (Finset.mem_range.mp hmf.1) hmf.2.1 hmf.2.2
    | some s =>
      apply ih
      · rw [fixupStep_length, fixupStep_sum w f s hb]
        exact hge
      · have := fixupStep_zeroSet w f s hb hge
        omega

/-! ## The binary-block weight vector is a valid explicit distribution -/

/-- `popcountAux` needs no fuel on zero. -/
theorem popcountAux_zero (fuel : ℕ) : popcountAux fuel 0 = 0 := by
  cases fuel <;> rfl

/-- `popcountAux` is independent of the fuel once it covers the input. -/
theorem popcountAux_congr (f₁ : ℕ) : ∀ n, n ≤ f₁ → ∀ f₂, n ≤ f₂ →
    popcountAux f₁ n = popcountAux f₂ n := by
  induction f₁ with
  | zero =>
    intro n hn f₂ _
    have : n = 0 := by omega
    subst this
    rw [popcountAux_zero, popcountAux_zero]
  | succ f₁ ih =>
    intro n hn f₂ hn₂
    rcases Nat.eq_zero_or_pos n with h0 | h0
    · subst h0
      rw [popcountAux_zero, popcountAux_zero]
    · cases f₂ with
      | zero => omega
      | succ f₂ =>
        rw [popcountAux, popcountAux, if_neg (by omega), if_neg (by omega)]
        have hdiv : n / 2 < n := Nat.div_lt_self h0 (by omega)
        rw [ih (n / 2) (by omega) f₂ (by omega)]

/-- `popcount` of an odd number: one more than the half's. -/
theorem popcount_two_mul_add_one (n : ℕ) : popcount (2 * n + 1) = popcount n + 1 := by
  rw [popcount, popcountAux, if_neg (by omega)]
  have h1 : (2 * n + 1) % 2 = 1 := by omega
  have h2 : (2 * n + 1) / 2 = n := by omega
  rw [h1, h2, popcount, popcountAux_congr (2 * n) n (by omega) n (le_refl n)]
  omega

/-- All `bits` bits of `2^bits - 1` are set. -/
theorem popcount_pow_sub_one (bits : ℕ) : popcount (2 ^ bits - 1) = bits := by
  induction bits with
  | zero => rfl
  | succ b ih =>
    have h : 2 ^ (b + 1) - 1 = 2 * (2 ^ b - 1) + 1 := by
      have : 1 ≤ 2 ^ b := Nat.one_le_two_pow
      rw [pow_succ]
      omega
    rw [h, popcount_two_mul_add_one, ih]

/-- The binary-block vector has `2^bits` entries. -/
theorem binaryWeights_length (p : ℚ) (bits : ℕ) :
    (binaryWeights p bits).length = 2 ^ bits := by
  rw [binaryWeights, List.length_map, List.length_range]

/-- The binary-block weights are nonnegative for `p ∈ [0,1]`. -/
theorem binaryWeights_nonneg (p : ℚ) (bits : ℕ) (hp0 : 0 ≤ p) (hp1 : p ≤ 1) :
    ∀ x ∈ binaryWeights p bits, 0 ≤ x := by
  intro x hx
  obtain ⟨v, -, hv⟩ := List.mem_map.mp hx
  rw [← hv]
  have h1 : (0 : ℚ) ≤ 1 - p := by linarith
  exact mul_nonneg (pow_nonneg hp0 _) (pow_nonneg h1 _)

/-- Some binary-block weight is nonzero for `p ∈ [0,1]`. -/
theorem binaryWeights_not_all_zero (p : ℚ) (bits : ℕ) (hp1 : p ≤ 1) :
    ∃ x ∈ binaryWeights p bits, x ≠ 0 := by
  rcases eq_or_lt_of_le hp1 with hp | hp
  · refine ⟨p ^ popcount (2 ^ bits - 1) * (1 - p) ^ (bits - popcount (2 ^ bits - 1)), ?_, ?_⟩
    · exact List.mem_map_of_mem _ (List.mem_range.mpr (by
        have : 1 ≤ 2 ^ bits := Nat.one_le_two_pow
        omega))
    · rw [popcount_pow_sub_one, Nat.sub_self, pow_zero, mul_one, hp, one_pow]
      exact one_ne_zero
  · refine ⟨p ^ popcount 0 * (1 - p) ^ (bits - popcount 0), ?_, ?_⟩
    · exact List.mem_map_of_mem _ (List.mem_range.mpr (Nat.pos_pow_of_pos bits (by omega)))
    · have hpc : popcount 0 = 0 := rfl
      rw [hpc, pow_zero, one_mul, Nat.sub_zero]
      exact ne_of_gt (pow_pos (by linarith) bits)

/-- `init_binary` succeeds on valid parameters. -/
theorem init_binary_ok (p : ℚ) (bits : ℕ)
    (hp0 : 0 ≤ p) (hp1 : p ≤ 1) (hb : 0 < bits) (hbm : bits ≤ maxBits) :
    init_binary p bits = .ok (binaryWeights p bits) := by
  rw [init_binary, if_neg]
  push_neg
  exact ⟨hp0, hp1, by omega, by omega⟩

/-- The binary-block vector passes the explicit builder's validation. -/
theorem init_from_distribution_binary_ok (p : ℚ) (bits : ℕ)
    (hp0 : 0 ≤ p) (hp1 : p ≤ 1) :
    init_from_distribution (binaryWeights p bits) = .ok (binaryWeights p bits) := by
  apply init_from_distribution_ok
  rintro (hlen | hneg | hzero)
  · rw [binaryWeights_length] at hlen
    have : 1 ≤ 2 ^ bits := Nat.one_le_two_pow
    omega
  · obtain ⟨x, hx, hxneg⟩ := hneg
    exact absurd hxneg (not_lt.mpr (binaryWeights_nonneg p bits hp0 hp1 x hx))
  · obtain ⟨x, hx, hxne⟩ := binaryWeights_not_all_zero p bits hp1
    exact hxne (hzero x hx)

/-! ## Spreader: the stride is coprime with the table size -/

/-- The stride is odd by construction. -/
theorem spreadStep_odd (lnL : ℕ) : spreadStep lnL % 2 = 1 := by
  rw [spreadStep]
  split
  · assumption
  · omega

/-- An odd stride is coprime with the power-of-two table size. -/
theorem spreadStep_coprime (lnL : ℕ) : Nat.Coprime (spreadStep lnL) (2 ^ lnL) := by
  apply Nat.Coprime.pow_right
  have hodd := spreadStep_odd lnL
  have hnd : ¬ (2 ∣ spreadStep lnL) := by
    intro hd
    obtain ⟨k, hk⟩ := hd
    omega
  exact ((Nat.Prime.coprime_iff_not_dvd Nat.prime_two).mpr hnd).symm

/-- Distinct scan indices land on distinct slots (coprime stride). -/
theorem positions_inj (lnL pos i j : ℕ) (hi : i < 2 ^ lnL) (hj : j < 2 ^ lnL)
    (h : (pos + i * spreadStep lnL) % 2 ^ lnL = (pos + j * spreadStep lnL) % 2 ^ lnL) :
    i = j := by
  have h1 : pos + i * spreadStep lnL ≡ pos + j * spreadStep lnL [MOD 2 ^ lnL] := h
  have h2 : i * spreadStep lnL ≡ j * spreadStep lnL [MOD 2 ^ lnL] :=
    Nat.ModEq.add_left_cancel' pos h1
  have h3 : i ≡ j [MOD 2 ^ lnL] :=
    Nat.ModEq.cancel_right_of_coprime (spreadStep_coprime lnL).symm h2
  have h4 : i % 2 ^ lnL = j % 2 ^ lnL := h3
  rw [Nat.mod_eq_of_lt hi, Nat.mod_eq_of_lt hj] at h4
  exact h4

/-! ## Spreader: counting the written table -/

/-- `getD` of a replicated zero list is always zero. -/
theorem getD_replicate_zero (L k : ℕ) : (List.replicate L (0 : ℕ)).getD k 0 = 0 := by
  rw [List.getD_eq_getElem?_getD, List.getElem?_replicate]
  split <;> rfl

/-- The scan preserves the table length. -/
theorem spreadLoop_length (syms : List ℕ) (pos step L : ℕ) (t : List ℕ) :
    (spreadLoop syms pos step L t).length = t.length := by
  induction syms generalizing pos t with
  | nil => rfl
  | cons s rest ih => rw [spreadLoop, ih, List.length_set]

/-- Counting invariant of the scan: while every slot the scan will visit
still holds the blank value `0` and the visited slots are pairwise
distinct, each write trades one blank for one symbol. -/
theorem spreadLoop_count (syms : List ℕ) (L step : ℕ) (hL : 0 < L) :
    ∀ (pos : ℕ) (t : List ℕ), pos < L → t.length = L →
    (∀ i j, i < syms.length → j < syms.length →
      (pos + i * step) % L = (pos + j * step) % L → i = j) →
    (∀ i, i < syms.length → t.getD ((pos + i * step) % L) 0 = 0) →
    ∀ v, (spreadLoop syms pos step L t).count v + (if v = 0 then syms.length else 0) =
      t.count v + syms.count v := by
  induction syms with
  | nil =>
    intro pos t _ _ _ _ v
    rw [spreadLoop]
    simp
  | cons s rest ih =>
    intro pos t hpos hlen hinj hfree v
    rw [spreadLoop]
    have hshift : ∀ k : ℕ, ((pos + step) % L + k * step) % L = (pos + (k + 1) * step) % L := by
      intro k
      rw [Nat.mod_add_mod]
      ring_nf
    have hpos0 : (pos + 0 * step) % L = pos := by
      rw [Nat.zero_mul, Nat.add_zero, Nat.mod_eq_of_lt hpos]
    have hposlen : pos < t.length := by omega
    have ht0 : t[pos] = 0 := by
      have := hfree 0 (by simp)
      rw [hpos0] at this
      rw [← List.getD_eq_getElem t 0 hposlen]
      exact this
    have hih := ih ((pos + step) % L) (t.set pos s) (Nat.mod_lt _ hL)
      (by rw [List.length_set]; exact hlen)
      (by
        intro i j hi hj hij
        rw [hshift i, hshift j] at hij
        have := hinj (i + 1) (j + 1) (by simp; omega) (by simp; omega) hij
        omega)
      (by
        intro i hi
        rw [hshift i]
        have hne : pos ≠ (pos + (i + 1) * step) % L := by
          intro he
          have heq : (pos + 0 * step) % L = (pos + (i + 1) * step) % L := by
            rw [hpos0]
            exact he
          have := hinj 0 (i + 1) (by simp) (by simp; omega) heq
          omega
        rw [getD_set_ne t pos _ s hne]
        exact hfree (i + 1) (by simp; omega))
    have hkey := hih v
    have hset := List.count_set s v t pos hposlen
    rw [ht0] at hset
    have hmem0 : (0 : ℕ) ∈ t := by
      rw [← ht0]
      exact List.getElem_mem hposlen
    have hge : 1 ≤ t.count 0 := List.count_pos_iff.mpr hmem0
    rw [List.count_cons, List.length_cons]
    have hb0 : (if ((0 : ℕ) == v) = true then 1 else 0) = (if v = 0 then 1 else 0) := by
      by_cases hv : v = 0
      · rw [if_pos (by simp [hv]), if_pos hv]
      · rw [if_neg (by simp only [beq_iff_eq]; omega), if_neg hv]
    have hbs : (if (s == v) = true then 1 else 0) = (if s = v then 1 else 0) := by
      by_cases hsv : s = v
      · rw [if_pos (by simp [hsv]), if_pos hsv]
      · rw [if_neg (by simp only [beq_iff_eq]; omega), if_neg hsv]
    rw [hb0, hbs] at hset
    rw [hbs]
    by_cases hv : v = 0
    · rw [if_pos hv] at hkey hset ⊢
      subst hv
      by_cases hsv : s = 0
      · rw [if_pos hsv] at hset ⊢
        omega
      · rw [if_neg hsv] at hset ⊢
        omega
    · rw [if_neg hv] at hkey hset ⊢
      by_cases hsv : s = v
      · rw [if_pos hsv] at hset ⊢
        omega
      · rw [if_neg hsv] at hset ⊢
        omega

/-! ## Spreader: the run-length expansion -/

/-- Length of the run-length expansion. -/
theorem expansionAux_length (f : List ℕ) : ∀ s, (expansionAux s f).length = f.sum := by
  induction f with
  | nil => intro s; rfl
  | cons k rest ih =>
    intro s
    rw [expansionAux, List.length_append, List.length_replicate, ih, List.sum_cons]

/-- Occurrence counts in the run-length expansion. -/
theorem expansionAux_count (f : List ℕ) : ∀ s v, (expansionAux s f).count v =
    if s ≤ v ∧ v < s + f.length then f.getD (v - s) 0 else 0 := by
  induction f with
  | nil =>
    intro s v
    rw [expansionAux]
    simp only [List.count_nil, List.length_nil]
    rw [if_neg (by omega)]
  | cons k rest ih =>
    intro s v
    rw [expansionAux, List.count_append, List.count_replicate, ih (s + 1) v,
      List.length_cons]
    by_cases hv : v = s
    · subst hv
      rw [if_pos (beq_self_eq_true v), if_neg (by omega), if_pos (by omega)]
      rw [Nat.sub_self, List.getD_cons_zero]
      omega
    · rw [if_neg (by simp only [beq_iff_eq]; omega)]
      by_cases hrange : s + 1 ≤ v ∧ v < s + 1 + rest.length
      · rw [if_pos hrange, if_pos (by omega)]
        have hvs : v - s = (v - (s + 1)) + 1 := by omega
        rw [hvs, List.getD_cons_succ]
        omega
      · rw [if_neg hrange, if_neg (by omega)]

/-- The expansion of `f` contains symbol `v` exactly `f.getD v 0` times. -/
theorem expansion_count (f : List ℕ) (v : ℕ) : (expansion f).count v = f.getD v 0 := by
  rw [expansion, expansionAux_count f 0 v]
  by_cases h : v < f.length
  · rw [if_pos ⟨Nat.zero_le v, by omega⟩, Nat.sub_zero]
  · rw [if_neg (by omega), List.getD_eq_default _ _ (by omega)]

/-! ## Claim theorems: error handling and determinism -/

/-- **C3.** The whole pipeline is deterministic: two calls to
`getCustomSymbolSpread` (resp. `getBinarySymbolSpread`) with identical
inputs return identical tables. -/
theorem determinism_of_pipeline :
    (∀ (w : List ℚ) (lnL : ℕ) (t₁ t₂ : List ℕ),
       getCustomSymbolSpread w lnL = .ok t₁ → getCustomSymbolSpread w lnL = .ok t₂ →
       t₁ = t₂) ∧
    (∀ (p : ℚ) (bits lnL : ℕ) (t₁ t₂ : List ℕ),
       getBinarySymbolSpread p bits lnL = .ok t₁ → getBinarySymbolSpread p bits lnL = .ok t₂ →
       t₁ = t₂) := by
  constructor
  · intro w lnL t₁ t₂ h₁ h₂
    rw [h₁] at h₂
    exact (Except.ok.injEq _ _).mp h₂
  · intro p bits lnL t₁ t₂ h₁ h₂
    rw [h₁] at h₂
    exact (Except.ok.injEq _ _).mp h₂

/-- Witness for **C3** at the concrete input `w = [1,1]`, `lnL = 1`
(resp. `p = 1/2`, `bits = 1`, `lnL = 1`). -/
theorem determinism_of_pipeline_witness :
    getCustomSymbolSpread [1, 1] 1 = .ok [0, 1] ∧
    getBinarySymbolSpread (1 / 2) 1 1 = .ok [0, 1] ∧
    ([0, 1] : List ℕ) = [0, 1] ∧ ([0, 1] : List ℕ) = [0, 1] :=
  ⟨by with_unfolding_all rfl, by with_unfolding_all rfl,
   determinism_of_pipeline.1 [1, 1] 1 [0, 1] [0, 1] (by with_unfolding_all rfl)
     (by with_unfolding_all rfl),
   determinism_of_pipeline.2 (1 / 2) 1 1 [0, 1] [0, 1] (by with_unfolding_all rfl)
     (by with_unfolding_all rfl)⟩

/-- **C5.** The Quantizer fails with `PrecisionTooLow` exactly when the
alphabet is larger than the table (`m > L = 2^lnL`); in particular the
pipeline on `weights = [1]*100`, `m = 100`, `lnL = 3` fails with
`PrecisionTooLow`. -/
theorem precision_too_low_iff :
    (∀ (w : List ℚ) (lnL : ℕ),
       quantize_prec w lnL = .error .PrecisionTooLow ↔ 2 ^ lnL < w.length) ∧
    getCustomSymbolSpread (List.replicate 100 1) 3 = .error .PrecisionTooLow :=
  ⟨quantize_prec_error, by with_unfolding_all rfl⟩

/-- **C6.** The pipeline fails with `InvalidDistribution` exactly when
`m = 0`, or all weights are zero, or some weight is negative; in
particular `weights = [0,0,0]`, `m = 3`, `lnL = 2` fails with
`InvalidDistribution`. -/
theorem invalid_distribution_iff :
    (∀ (w : List ℚ) (lnL : ℕ),
       getCustomSymbolSpread w lnL = .error .InvalidDistribution ↔
         (w.length = 0 ∨ (∀ x ∈ w, x = 0) ∨ ∃ x ∈ w, x < 0)) ∧
    getCustomSymbolSpread [0, 0, 0] 2 = .error .InvalidDistribution := by
  refine ⟨fun w lnL => ?_, by rfl⟩
  constructor
  · intro h
    rw [← init_from_distribution_error w]
    by_contra hc
    have hok : init_from_distribution w = .ok w := by
      apply init_from_distribution_ok
      intro hd
      apply hc
      apply (init_from_distribution_error w).mpr
      tauto
    rw [getCustomSymbolSpread] at h
    rw [hok] at h
    simp only [bind, Except.bind] at h
    rcases hq : quantize_prec w lnL with e | f
    · rw [hq] at h
      have he : e = ANSError.InvalidDistribution := (Except.error.injEq _ _).mp h
      have hp : e = ANSError.PrecisionTooLow := quantize_prec_error_shape w lnL e hq
      rw [he] at hp
      exact ANSError.noConfusion hp
    · rw [hq] at h
      exact spread_fast_ne_invalid f lnL h
  · intro h
    have hi : init_from_distribution w = .error .InvalidDistribution :=
      (init_from_distribution_error w).mpr h
    rw [getCustomSymbolSpread, hi]
    rfl

/-- When the apportionment already gives every positive-weight symbol a
slot, the fix-up loop is a no-op. -/
theorem fixup_noop (w : List ℚ) (fuel : ℕ) (g : List ℕ) (h : bumpIndex w g = none) :
    fixup w fuel g = g := by
  cases fuel with
  | zero => rfl
  | succ fuel =>
    have hunf : fixup w (fuel + 1) g = match bumpIndex w g with
      | none => g
      | some s => fixup w fuel (fixupStep g s) := rfl
    rw [hunf, h]

/-- Largest-remainder apportionment is monotone in the weights. -/
theorem apportion_monotone (w : List ℚ) (L : ℕ) (s₁ s₂ : ℕ)
    (hw : ∀ x ∈ w, 0 ≤ x) (hs : 0 < w.sum) (hL : 0 < L)
    (h1 : s₁ < w.length) (h2 : s₂ < w.length)
    (hgt : w.getD s₂ 0 < w.getD s₁ 0) :
    (apportion w L).getD s₂ 0 ≤ (apportion w L).getD s₁ 0 := by
  have hshare : share w L s₂ < share w L s₁ := by
    rw [share, share]
    apply div_lt_div_of_pos_right _ hs
    have hLq : (0 : ℚ) < (L : ℚ) := by exact_mod_cast hL
    exact mul_lt_mul_of_pos_right hgt hLq
  have hfl : ⌊share w L s₂⌋ ≤ ⌊share w L s₁⌋ := Int.floor_le_floor hshare.le
  have hnn1 : (0 : ℤ) ≤ ⌊share w L s₁⌋ := Int.floor_nonneg.mpr (share_nonneg w L s₁ hw hs)
  have hnn2 : (0 : ℤ) ≤ ⌊share w L s₂⌋ := Int.floor_nonneg.mpr (share_nonneg w L s₂ hw hs)
  have hfa : floorAlloc w L s₂ ≤ floorAlloc w L s₁ := by
    rw [floorAlloc, floorAlloc, ratFloor_eq_intFloor, ratFloor_eq_intFloor]
    exact Int.toNat_le_toNat hfl
  rw [apportion_getD w L s₁ h1, apportion_getD w L s₂ h2]
  rcases lt_or_eq_of_le hfa with hlt | heq
  · have hb1 : (if rank w L s₂ < deficit w L then 1 else 0) ≤ 1 := by
      split <;> omega
    have hb2 : (0:ℕ) ≤ (if rank w L s₁ < deficit w L then 1 else 0) := by
      split <;> omega
    omega
  · have hfeq : ⌊share w L s₂⌋ = ⌊share w L s₁⌋ := by
      rw [← Int.toNat_of_nonneg hnn2, ← Int.toNat_of_nonneg hnn1]
      rw [floorAlloc, floorAlloc, ratFloor_eq_intFloor, ratFloor_eq_intFloor] at heq
      exact_mod_cast heq
    have hfrac : frac w L s₂ < frac w L s₁ := by
      rw [frac, frac, ratFloor_eq_intFloor, ratFloor_eq_intFloor, hfeq]
      exact sub_lt_sub_right hshare _
    have hbeats : beats w L s₁ s₂ := Or.inl hfrac
    have hrank : rank w L s₁ < rank w L s₂ := rank_lt_of_beats w L h1 hbeats
    have hite : (if rank w L s₂ < deficit w L then 1 else 0) ≤
        (if rank w L s₁ < deficit w L then (1:ℕ) else 0) := by
      split
      · rw [if_pos (by omega)]
      · split <;> omega
    omega

/-- **C7 (amended).** Quantization is monotone in the weights whenever the
apportionment stage already leaves no positive-weight symbol at zero (the
fix-up loop does not run): if `w_{s1} > w_{s2} > 0` then
`freq[s1] ≥ freq[s2]`. -/
theorem quantize_monotone_amended (w : List ℚ) (lnL : ℕ) (f : List ℕ) (s₁ s₂ : ℕ)
    (hw : ∀ x ∈ w, 0 ≤ x)
    (hnz : bumpIndex w (apportion w (2 ^ lnL)) = none)
    (h : quantize_prec w lnL = .ok f)
    (h1 : s₁ < w.length) (h2 : s₂ < w.length)
    (hgt : w.getD s₂ 0 < w.getD s₁ 0) (hpos : 0 < w.getD s₂ 0) :
    f.getD s₂ 0 ≤ f.getD s₁ 0 := by
  have hmem : w.getD s₂ 0 ∈ w := by
    rw [List.getD_eq_getElem _ _ h2]
    exact List.getElem_mem h2
  have hs : 0 < w.sum := lt_of_lt_of_le hpos (List.single_le_sum hw _ hmem)
  obtain ⟨hle, hf⟩ := quantize_prec_ok_elim w lnL f h
  rw [hf, fixup_noop w _ _ hnz]
  exact apportion_monotone w (2 ^ lnL) s₁ s₂ hw hs (Nat.pos_pow_of_pos lnL (by omega))
    h1 h2 hgt

/-- Witness for the amended **C7** at `w = [2, 1, 1]`, `lnL = 2`,
`s₁ = 0`, `s₂ = 1`. -/
theorem quantize_monotone_amended_witness :
    (∀ x ∈ ([2, 1, 1] : List ℚ), 0 ≤ x) ∧
    bumpIndex [2, 1, 1] (apportion [2, 1, 1] (2 ^ 2)) = none ∧
    quantize_prec [2, 1, 1] 2 = .ok [2, 1, 1] ∧
    (0 : ℕ) < ([2, 1, 1] : List ℚ).length ∧ (1 : ℕ) < ([2, 1, 1] : List ℚ).length ∧
    ([2, 1, 1] : List ℚ).getD 1 0 < ([2, 1, 1] : List ℚ).getD 0 0 ∧
    (0 : ℚ) < ([2, 1, 1] : List ℚ).getD 1 0 ∧
    ([2, 1, 1] : List ℕ).getD 1 0 ≤ ([2, 1, 1] : List ℕ).getD 0 0 :=
  ⟨by with_unfolding_all decide, by with_unfolding_all rfl, by with_unfolding_all rfl,
   by decide, by decide, by with_unfolding_all decide, by with_unfolding_all decide,
   quantize_monotone_amended [2, 1, 1] 2 [2, 1, 1] 0 1 (by with_unfolding_all decide)
     (by with_unfolding_all rfl) (by with_unfolding_all rfl) (by decide) (by decide)
     (by with_unfolding_all decide) (by with_unfolding_all decide)⟩

/-- **C7 (counterexample).** As stated the monotonicity claim fails: on
`w = [11/5, 17/10, 1/10]` with `lnL = 2` the Quantizer returns
`[1, 2, 1]`, although `w_0 = 11/5 > w_1 = 17/10 > 0` while
`freq[0] = 1 < 2 = freq[1]` (the fix-up loop takes the spare unit from
symbol 0, the lowest-ID holder of the maximal frequency). -/
theorem quantize_monotone_cex :
    quantize_prec [11/5, 17/10, 1/10] 2 = .ok [1, 2, 1] ∧
    (17/10 : ℚ) < 11/5 ∧ (0 : ℚ) < 17/10 ∧
    ¬ (([1, 2, 1] : List ℕ).getD 1 0 ≤ ([1, 2, 1] : List ℕ).getD 0 0) :=
  ⟨by with_unfolding_all rfl, by with_unfolding_all decide, by with_unfolding_all decide,
   by decide⟩

/-- A successful explicit build returns the weights unchanged. -/
theorem init_from_distribution_ok_eq (w d : List ℚ)
    (h : init_from_distribution w = .ok d) : d = w := by
  by_cases hc : w.length = 0 ∨ w.any (fun x => decide (x < 0)) ∨
      w.all (fun x => decide (x = 0))
  · rw [init_from_distribution, if_pos hc] at h
    exact Except.noConfusion h
  · rw [init_from_distribution, if_neg hc] at h
    exact ((Except.ok.injEq _ _).mp h).symm

/-- Whenever the pipeline stages succeed, the spread table has length
exactly `2^lnL`, every entry is a symbol ID below `m`, and every symbol
occurs in the table exactly its quantized frequency many times. -/
theorem spread_table_shape (w d : List ℚ) (lnL : ℕ) (f t : List ℕ)
    (h₁ : init_from_distribution w = .ok d)
    (h₂ : quantize_prec d lnL = .ok f)
    (h₃ : spread_fast f lnL = .ok t) :
    t.length = 2 ^ lnL ∧ (∀ x ∈ t, x < w.length) ∧ (∀ s, t.count s = f.getD s 0) := by
  have hdw : d = w := init_from_distribution_ok_eq w d h₁
  obtain ⟨hml, hfe⟩ := quantize_prec_ok_elim d lnL f h₂
  obtain ⟨hsum, hte⟩ := spread_fast_ok_elim f lnL t h₃
  have hflen : f.length = w.length := by
    rw [hfe, fixup_length, apportion_length, hdw]
  have hL : 0 < 2 ^ lnL := Nat.pos_pow_of_pos lnL (by omega)
  have hexplen : (expansion f).length = 2 ^ lnL := by
    rw [expansion, expansionAux_length, hsum]
  have hcount : ∀ v, t.count v = (expansion f).count v := by
    intro v
    have hmain := spreadLoop_count (expansion f) (2 ^ lnL) (spreadStep lnL) hL 0
      (List.replicate (2 ^ lnL) 0) hL (List.length_replicate _ _)
      (by
        intro i j hi hj hij
        rw [hexplen] at hi hj
        exact positions_inj lnL 0 i j hi hj hij)
      (fun i _ => getD_replicate_zero _ _)
      v
    rw [← hte, List.count_replicate, hexplen] at hmain
    by_cases hv : v = 0
    · rw [if_pos hv, if_pos (by simp [hv])] at hmain
      omega
    · rw [if_neg hv, if_neg (by simp only [beq_iff_eq]; omega)] at hmain
      omega
  refine ⟨by rw [hte, spreadLoop_length, List.length_replicate], ?_,
    fun s => (hcount s).trans (expansion_count f s)⟩
  intro x hx
  have hpos : 0 < t.count x := List.count_pos_iff.mpr hx
  rw [hcount x, expansion_count] at hpos
  by_contra hge
  rw [List.getD_eq_default _ _ (by omega)] at hpos
  omega

/-- The explicit builder accepts every distribution with nonnegative
weights and positive total. -/
theorem init_from_distribution_valid_ok (w : List ℚ)
    (hw : ∀ x ∈ w, 0 ≤ x) (hs : 0 < w.sum) :
    init_from_distribution w = .ok w := by
  apply init_from_distribution_ok
  rintro (h0 | hneg | hzero)
  · rw [List.length_eq_zero] at h0
    rw [h0] at hs
    simp at hs
  · obtain ⟨x, hx, hlt⟩ := hneg
    exact absurd hlt (not_lt.mpr (hw x hx))
  · rw [List.sum_eq_zero hzero] at hs
    exact lt_irrefl 0 hs

/-- **C1.** On every valid input (nonnegative weights with positive
total, `m ≤ 2^lnL`), the pipeline succeeds and returns a table of length
exactly `2^lnL` whose entries are all symbol IDs in `[0, m)`, and every
symbol occurs in the table exactly the Quantizer's `freq[s]` many
times. -/
theorem custom_spread_table (w : List ℚ) (lnL : ℕ)
    (hw : ∀ x ∈ w, 0 ≤ x) (hs : 0 < w.sum) (hml : w.length ≤ 2 ^ lnL) :
    ∃ f t, quantize_prec w lnL = .ok f ∧ getCustomSymbolSpread w lnL = .ok t ∧
      t.length = 2 ^ lnL ∧ (∀ x ∈ t, x < w.length) ∧ ∀ s, t.count s = f.getD s 0 := by
  have hinit : init_from_distribution w = .ok w := init_from_distribution_valid_ok w hw hs
  have hquant := quantize_prec_ok w lnL hml
  have hfsum : (fixup w w.length (apportion w (2 ^ lnL))).sum = 2 ^ lnL := by
    rw [fixup_sum, apportion_sum w _ hw hs]
  have hspread : spread_fast (fixup w w.length (apportion w (2 ^ lnL))) lnL =
      .ok (spreadLoop (expansion (fixup w w.length (apportion w (2 ^ lnL)))) 0
        (spreadStep lnL) (2 ^ lnL) (List.replicate (2 ^ lnL) 0)) := by
    rw [spread_fast, if_neg (by simpa using hfsum)]
  have hpipe : getCustomSymbolSpread w lnL =
      spread_fast (fixup w w.length (apportion w (2 ^ lnL))) lnL := by
    rw [getCustomSymbolSpread, hinit]
    simp only [bind, Except.bind]
    rw [hquant]
  refine ⟨fixup w w.length (apportion w (2 ^ lnL)),
    spreadLoop (expansion (fixup w w.length (apportion w (2 ^ lnL)))) 0
      (spreadStep lnL) (2 ^ lnL) (List.replicate (2 ^ lnL) 0),
    hquant, hpipe.trans hspread, ?_⟩
  exact spread_table_shape w w lnL _ _ hinit hquant hspread

/-- Witness for **C1** at `w = [3, 1]`, `lnL = 2` (the pipeline returns
the table `[0, 0, 0, 1]`). -/
theorem custom_spread_table_witness :
    (∀ x ∈ ([3, 1] : List ℚ), 0 ≤ x) ∧ (0 : ℚ) < ([3, 1] : List ℚ).sum ∧
    ([3, 1] : List ℚ).length ≤ 2 ^ 2 ∧
    (∃ f t, quantize_prec [3, 1] 2 = .ok f ∧ getCustomSymbolSpread [3, 1] 2 = .ok t ∧
      t.length = 2 ^ 2 ∧ (∀ x ∈ t, x < ([3, 1] : List ℚ).length) ∧
      ∀ s, t.count s = f.getD s 0) :=
  ⟨by with_unfolding_all decide, by with_unfolding_all decide, by decide,
   custom_spread_table [3, 1] 2 (by with_unfolding_all decide)
     (by with_unfolding_all decide) (by decide)⟩

/-- **C9.** Compositional equivalence of the two entry points: on valid
parameters (`p ∈ [0,1]`, `0 < bits ≤ maxBits`), `getBinarySymbolSpread`
returns exactly what `getCustomSymbolSpread` returns on the binary-block
weight vector `weight(v) = p^popcount(v) * (1-p)^(bits-popcount(v))` of
`m = 2^bits` entries — both run the same Quantizer and Spreader after the
Distribution Builder stage. -/
theorem binary_custom_equiv (p : ℚ) (bits lnL : ℕ)
    (hp0 : 0 ≤ p) (hp1 : p ≤ 1) (hb : 0 < bits) (hbm : bits ≤ maxBits) :
    getBinarySymbolSpread p bits lnL =
      getCustomSymbolSpread (binaryWeights p bits) lnL := by
  rw [getBinarySymbolSpread, getCustomSymbolSpread, init_binary_ok p bits hp0 hp1 hb hbm,
    init_from_distribution_binary_ok p bits hp0 hp1]

/-- Witness for **C9** at `p = 1/2`, `bits = 1`, `lnL = 1` (the spec's
boundary case, giving the 2-slot table `[0, 1]`). -/
theorem binary_custom_equiv_witness :
    (0 : ℚ) ≤ 1 / 2 ∧ (1 / 2 : ℚ) ≤ 1 ∧ (0 : ℕ) < 1 ∧ (1 : ℕ) ≤ maxBits ∧
    getBinarySymbolSpread (1 / 2) 1 1 = getCustomSymbolSpread (binaryWeights (1 / 2) 1) 1 :=
  ⟨by with_unfolding_all decide, by with_unfolding_all decide, by decide, by decide,
   binary_custom_equiv (1 / 2) 1 1 (by with_unfolding_all decide)
     (by with_unfolding_all decide) (by decide) (by decide)⟩

/-- **C2.** On every valid distribution (nonnegative weights, positive
total) the Quantizer's frequency table consists of non-negative integers
summing exactly to `L = 2^lnL`. -/
theorem quantize_sum (w : List ℚ) (lnL : ℕ) (f : List ℕ)
    (hw : ∀ x ∈ w, 0 ≤ x) (hs : 0 < w.sum)
    (h : quantize_prec w lnL = .ok f) :
    (∀ x ∈ f, 0 ≤ x) ∧ f.sum = 2 ^ lnL := by
  obtain ⟨hle, hf⟩ := quantize_prec_ok_elim w lnL f h
  subst hf
  refine ⟨fun x _ => Nat.zero_le x, ?_⟩
  rw [fixup_sum, apportion_sum w _ hw hs]

/-- **C4.** Positive-mass guarantee: whenever the Quantizer succeeds on a
valid distribution, every symbol with positive weight keeps frequency at
least 1, and a zero frequency occurs only for a weight that was exactly
zero. -/
theorem quantize_positive_mass (w : List ℚ) (lnL : ℕ) (f : List ℕ) (s : ℕ)
    (hw : ∀ x ∈ w, 0 ≤ x) (hs : 0 < w.sum)
    (h : quantize_prec w lnL = .ok f) (hsm : s < w.length) :
    (0 < w.getD s 0 → 1 ≤ f.getD s 0) ∧ (f.getD s 0 = 0 → w.getD s 0 = 0) := by
  obtain ⟨hle, hf⟩ := quantize_prec_ok_elim w lnL f h
  have hglen : (apportion w (2 ^ lnL)).length = w.length := apportion_length w _
  have hgsum : (apportion w (2 ^ lnL)).sum = 2 ^ lnL := apportion_sum w _ hw hs
  have hge : (apportion w (2 ^ lnL)).length ≤ (apportion w (2 ^ lnL)).sum := by omega
  have hcard : (zeroSet w (apportion w (2 ^ lnL))).card ≤ w.length := by
    calc (zeroSet w (apportion w (2 ^ lnL))).card
        ≤ (Finset.range (apportion w (2 ^ lnL)).length).card :=
          Finset.card_le_card (Finset.filter_subset _ _)
      _ = w.length := by rw [Finset.card_range, hglen]
  have hempty := fixup_no_zero w w.length (apportion w (2 ^ lnL)) hge hcard
  have hflen : f.length = w.length := by
    rw [hf, fixup_length, hglen]
  have hpos : 0 < w.getD s 0 → 1 ≤ f.getD s 0 := by
    intro hwp
    by_contra hz
    have hz0 : f.getD s 0 = 0 := by omega
    have hmem : s ∈ zeroSet w (fixup w w.length (apportion w (2 ^ lnL))) := by
      rw [← hf]
      exact Finset.mem_filter.mpr ⟨Finset.mem_range.mpr (by omega), hwp, hz0⟩
    rw [hempty] at hmem
    exact Finset.not_mem_empty s hmem
  refine ⟨hpos, fun hz => ?_⟩
  by_contra hne
  have hwp : 0 < w.getD s 0 := lt_of_le_of_ne (getD_nonneg w hw s) (Ne.symm hne)
  have := hpos hwp
  omega

/-- Witness for **C4** at `w = [1, 3]`, `lnL = 2`, `s = 0`. -/
theorem quantize_positive_mass_witness :
    (∀ x ∈ ([1, 3] : List ℚ), 0 ≤ x) ∧ (0 : ℚ) < ([1, 3] : List ℚ).sum ∧
    quantize_prec [1, 3] 2 = .ok [1, 3] ∧ 0 < ([1, 3] : List ℚ).length ∧
    ((0 < ([1, 3] : List ℚ).getD 0 0 → 1 ≤ ([1, 3] : List ℕ).getD 0 0) ∧
      (([1, 3] : List ℕ).getD 0 0 = 0 → ([1, 3] : List ℚ).getD 0 0 = 0)) :=
  ⟨by with_unfolding_all decide, by with_unfolding_all decide, by with_unfolding_all rfl,
   by decide,
   quantize_positive_mass [1, 3] 2 [1, 3] 0 (by with_unfolding_all decide)
     (by with_unfolding_all decide) (by with_unfolding_all rfl) (by decide)⟩

/-- Witness for **C2** at `w = [1, 1]`, `lnL = 1`. -/
theorem quantize_sum_witness :
    (∀ x ∈ ([1, 1] : List ℚ), 0 ≤ x) ∧ (0 : ℚ) < ([1, 1] : List ℚ).sum ∧
    quantize_prec [1, 1] 1 = .ok [1, 1] ∧
    ((∀ x ∈ ([1, 1] : List ℕ), 0 ≤ x) ∧ ([1, 1] : List ℕ).sum = 2 ^ 1) :=
  ⟨by with_unfolding_all decide, by with_unfolding_all decide, by with_unfolding_all rfl,
   quantize_sum [1, 1] 1 [1, 1] (by with_unfolding_all decide)
     (by with_unfolding_all decide) (by with_unfolding_all rfl)⟩
